import Mathlib

/-!
Verification development for the grain lazy-dataset core
(`grain/_src/python/lazy_dataset/lazy_dataset.py` and the single-bin packer
exercised by `grain/_src/python/lazy_dataset/transformations/packing_test.py`).

The Python code is shallowly embedded:

* a `LazyMapDataset` is a function `Nat → Option α` together with its declared
  length `L` (`None` elements model the sparse sentinel produced by filters);
* `PrefetchLazyDatasetIterator` (thread-pool prefetch over a map dataset)
  becomes a state machine whose state is the pair
  `(next_index, buffer)`; the Python buffer is a deque of futures, and since a
  future submitted for index `i` deterministically resolves to `dataset[i]`,
  the buffer is embedded as the list of resolved values.  `buffer = []` plays
  the role of Python's `None`/empty deque (the code only ever tests
  `if not self._buffer`, which does not distinguish the two);
* the while-loop of `__next__` is translated with an explicit fuel argument
  equal to the loop variant `L - next_index` (each iteration of the Python
  loop increments `next_index`, and the loop exits when it reaches `L`).
-/

/-- The prefetch window of indices `[i, min (i + B) L)` mapped through the
dataset: the resolved contents of the deque of futures created at line 476 of
`lazy_dataset.py` (`self._executor.submit(self._dataset.__getitem__, i)` for
`i in range(next_index, min(next_index + prefetch_buffer_size, length))`). -/
def window (ds : Nat → Option α) (L B i : Nat) : List (Option α) :=
  (List.range' i (min (i + B) L - i)).map ds

/-- One call of `PrefetchLazyDatasetIterator.__next__` (lines 461-494), with
`fuel` bounding the remaining iterations of its while loop (the loop variant is
`L - next_index`).  Arguments: dataset `ds` of declared length `L`, prefetch
buffer size `B`, the `allow_nones` flag, then the iterator state
`(next_index, buffer)`.  The result is `none` for `StopIteration` and
`some (element, next_index, buffer)` otherwise.  States with
`next_index > L` are not reachable through the public API (there the Python
loop would never terminate); the model returns `none` for them. -/
def prefetchNextF (ds : Nat → Option α) (L B : Nat) (allow_nones : Bool) :
    Nat → Nat → List (Option α) → Option (Option α × Nat × List (Option α))
  | 0, _, _ => none
  | fuel + 1, i, buf =>
    if i = L then none
    else if i < L then
      if 0 < B then
        match (if buf.isEmpty then window ds L B i else buf) with
        | [] => none
        | e :: rest =>
          if allow_nones || e.isSome then
            some (e, i + 1, if i + B < L then rest ++ [ds (i + B)] else rest)
          else
            prefetchNextF ds L B allow_nones fuel (i + 1)
              (if i + B < L then rest ++ [ds (i + B)] else rest)
      else
        if allow_nones || (ds i).isSome then some (ds i, i + 1, buf)
        else prefetchNextF ds L B allow_nones fuel (i + 1) buf
    else none

/-- One call of `__next__` from state `(i, buf)`. -/
def prefetchNext (ds : Nat → Option α) (L B : Nat) (allow_nones : Bool)
    (i : Nat) (buf : List (Option α)) : Option (Option α × Nat × List (Option α)) :=
  prefetchNextF ds L B allow_nones (L - i) i buf

/-- The full sequence of elements delivered by repeatedly calling `__next__`
until `StopIteration`, with fuel bounding the number of elements (at most
`L - i`, since every delivered element advances `next_index`). -/
def prefetchElemsF (ds : Nat → Option α) (L B : Nat) (allow_nones : Bool) :
    Nat → Nat → List (Option α) → List (Option α)
  | 0, _, _ => []
  | fuel + 1, i, buf =>
    match prefetchNext ds L B allow_nones i buf with
    | none => []
    | some (e, i', buf') => e :: prefetchElemsF ds L B allow_nones fuel i' buf'

/-- Elements delivered from state `(i, buf)` when consuming to exhaustion. -/
def prefetchElems (ds : Nat → Option α) (L B : Nat) (allow_nones : Bool)
    (i : Nat) (buf : List (Option α)) : List (Option α) :=
  prefetchElemsF ds L B allow_nones (L - i) i buf

/-- The state reached after `k` successful `__next__` calls (`none` if the
iterator is exhausted before the `k`-th call returns). -/
def prefetchStateAfter (ds : Nat → Option α) (L B : Nat) (allow_nones : Bool) :
    Nat → Nat × List (Option α) → Option (Nat × List (Option α))
  | 0, s => some s
  | k + 1, s =>
    match prefetchNext ds L B allow_nones s.1 s.2 with
    | none => none
    | some (_, i', buf') => prefetchStateAfter ds L B allow_nones k (i', buf')

/-- Models `get_state` (line 496): the checkpoint records only `next_index`. -/
def prefetchGetState (s : Nat × List (Option α)) : Nat := s.1

/-- Models `set_state` (lines 499-502): install `next_index`; when the buffer
size is positive the in-flight buffer is discarded (set back to `None`). -/
def prefetchSetState (B : Nat) (s : Nat × List (Option α)) (st : Nat) :
    Nat × List (Option α) :=
  (st, if 0 < B then [] else s.2)

/-- The state of a freshly constructed iterator (lines 445-459):
`next_index = 0` and no buffer. -/
def prefetchFresh : Nat × List (Option α) := (0, [])

/-! ### The indices read by the iterator (C10)

`readsF` records, across the whole consume-to-exhaustion run of a fresh
iterator, every index submitted to the dataset: the direct `__getitem__` call
of the synchronous path (line 490), the window of submissions made when the
buffer is rebuilt (lines 469-479), and the single submission appended after
each pop (lines 481-487).  The buffer is tracked as the list of in-flight
indices.  Whether a fetched element is `None` only affects which elements are
delivered, never which indices are read, so the trace does not depend on the
dataset or on `allow_nones`. -/

def readsF (L B : Nat) : Nat → Nat → List Nat → List Nat
  | 0, _, _ => []
  | fuel + 1, i, buf =>
    if i = L then []
    else if i < L then
      if 0 < B then
        match (if buf.isEmpty then List.range' i (min (i + B) L - i) else buf) with
        | [] => []
        | _ :: rest =>
          (if buf.isEmpty then List.range' i (min (i + B) L - i) else []) ++
            (if i + B < L then [i + B] else []) ++
            readsF L B fuel (i + 1) (if i + B < L then rest ++ [i + B] else rest)
      else i :: readsF L B fuel (i + 1) buf
    else []

/-- Indices read when running from state `(i, buf)` to exhaustion. -/
def reads (L B : Nat) (i : Nat) (buf : List Nat) : List Nat :=
  readsF L B (L - i) i buf

/-! ### Random-access primitives: `RangeLazyMapDataset` and `ShardLazyDataset`

Python integer semantics are embedded explicitly: Python `//` is `Int.fdiv`
(floor division) and Python `%` is `Int.emod` for the positive divisors that
occur here (Python's `%` takes the sign of the divisor).  A Python exception
(`ValueError` from `len(range(...))` with step 0, `ZeroDivisionError` from
`index % 0`) is embedded as `none`. -/

/-- Models `len(range(start, stop, step))` (used by `RangeLazyMapDataset._length`,
line 932-934): `none` when `step = 0` (Python `range` raises `ValueError`),
otherwise the number of elements of the range, computed CPython-style. -/
def rangeLen? (start stop step : Int) : Option Nat :=
  if step = 0 then none
  else if 0 < step then some (((stop - start).toNat + (step.toNat - 1)) / step.toNat)
  else some (((start - stop).toNat + ((-step).toNat - 1)) / (-step).toNat)

/-- The map datasets defined in `lazy_dataset.py`: `RangeLazyMapDataset`
(lines 923-942) and `ShardLazyDataset` (lines 962-982).  The shard's
`(shardStart, shardEnd)` stand for the two values that the constructor obtains
from `sharding.even_split(len(parent), shard_options)`.  Modelled from the
spec: `even_split` lives in `grain/_src/core/sharding.py`, which is not part
of the sources; per the spec it "computes an even split [start, end)" of
`[0, len(parent))`, so the split bounds are taken as parameters. -/
inductive SrcDataset where
  | range (start stop step : Int)
  | shard (parent : SrcDataset) (shardStart shardEnd : Nat)

/-- Models `__len__` of each dataset: `len(range(start, stop, step))` for
`RangeLazyMapDataset` and `end - start` for `ShardLazyDataset`. -/
def SrcDataset.length? : SrcDataset → Option Nat
  | .range a b s => rangeLen? a b s
  | .shard _ st en => some (en - st)

/-- Models `__getitem__` with an integer index (the slice overloads are not
modelled).  Range: `self.start + (index % self._length) * self.step`, where
computing `self._length` raises for step 0 and `index % 0` raises
`ZeroDivisionError`.  Shard: `epoch = index // len(self)`,
`index_in_epoch = index % len(self)`,
`self._parent[epoch * len(self._parent) + index_in_epoch + self._start]`. -/
def SrcDataset.getItem : SrcDataset → Int → Option Int
  | .range a b s, i =>
    match rangeLen? a b s with
    | none => none
    | some L => if L = 0 then none else some (a + (Int.emod i L) * s)
  | .shard p st en, i =>
    let len : Nat := en - st
    if len = 0 then none
    else
      match p.length? with
      | none => none
      | some N => p.getItem (Int.fdiv i len * N + Int.emod i len + st)

/-- Well-formedness of a dataset as the constructors of `lazy_dataset.py`
produce it with a positive declared length: a range whose length is a positive
number, and a shard of a nonempty split over a well-formed parent. -/
def SrcDataset.wfB : SrcDataset → Bool
  | .range a b s => 0 < (rangeLen? a b s).getD 0
  | .shard p st en => st < en && p.wfB

/-! ### `MultiprocessPrefetchLazyIterDataset` construction validation (C5)

The dataset DAG is embedded as a tree: `plain ps` is any dataset node that is
not a multiprocess-prefetch node, with its tuple of parents, and `mp p` is a
`MultiprocessPrefetchLazyIterDataset` node.  (Sharing in the Python DAG does
not affect reachability, so a tree suffices.) -/

inductive DagNode where
  | plain (parents : List DagNode)
  | mp (parent : DagNode)

mutual

def DagNode.weight : DagNode → Nat
  | .plain ps => 1 + DagNode.weightList ps
  | .mp p => 1 + p.weight

def DagNode.weightList : List DagNode → Nat
  | [] => 0
  | d :: ds => d.weight + DagNode.weightList ds

end

mutual

/-- Spec-side reachability: the node itself, or some transitive parent, is a
multiprocess-prefetch node. -/
def containsMP : DagNode → Bool
  | .plain ps => containsMPList ps
  | .mp _ => true

def containsMPList : List DagNode → Bool
  | [] => false
  | d :: ds => containsMP d || containsMPList ds

end

/-- Models `_validate_parent_dataset` (lines 534-544): a breadth-first worklist
walk that raises (returns `true`) as soon as it pops a
`MultiprocessPrefetchLazyIterDataset`, and otherwise extends the worklist with
the popped node's parents.  `fuel` bounds the number of loop iterations: each
iteration removes one node and replaces it by its parents, so the total weight
of the worklist is a loop variant. -/
def validateLoopF : Nat → List DagNode → Bool
  | 0, _ => false
  | fuel + 1, l =>
    match l with
    | [] => false
    | .mp _ :: _ => true
    | .plain ps :: rest => validateLoopF fuel (rest ++ ps)

/-- The worklist walk of `_validate_parent_dataset`, started on a worklist. -/
def validateLoop (l : List DagNode) : Bool := validateLoopF (DagNode.weightList l) l

/-- Models the options record `grain_options.MultiprocessingOptions` as far as
the constructor checks it. -/
structure MultiprocessingOptions where
  num_workers : Int

/-- Models `MultiprocessPrefetchLazyIterDataset.__init__` (lines 520-544):
first the `num_workers < 1` check, then `_validate_parent_dataset`; an
exception is embedded as `Except.error` with the message text. -/
def mkMultiprocessPrefetchDataset (parent : DagNode) (opts : MultiprocessingOptions) :
    Except String DagNode :=
  if opts.num_workers < 1 then
    .error "num_workers must be greater than 0"
  else if validateLoop [parent] then
    .error "Having multiple MultiprocessPrefetchLazyIterDataset is not allowed"
  else
    .ok (.mp parent)

/-! ### The shape of `get_state` results: aliasing model (C9)

Python state records are mutable dictionaries.  To talk about "sharing mutable
structure" in a pure setting, records live in an explicit heap at
record granularity: a heap cell holds the whole (tree-shaped) value of one
state record, mutation overwrites a cell, and two records share mutable
structure exactly when they are the same cell.  Each iterator's `get_state`
either returns the address of its live `_state` cell or allocates a fresh
cell: this is precisely the difference between `return self._state`
(`ThreadPrefetchLazyDatasetIterator`, line 902), `return
copy.deepcopy(self._state)` (`MultiprocessPrefetchLazyDatasetIterator`, line
662), and building a fresh literal `return ("next_index": self._next_index)`
(`PrefetchLazyDatasetIterator`, line 497). -/

inductive JVal where
  | int (n : Int)
  | dict (fields : List (String × JVal))

structure Heap where
  mem : Nat → JVal
  nextAddr : Nat

def Heap.read (h : Heap) (a : Nat) : JVal := h.mem a

/-- Caller-side mutation of the record stored at address `a`. -/
def Heap.write (h : Heap) (a : Nat) (v : JVal) : Heap :=
  ⟨fun x => if x = a then v else h.mem x, h.nextAddr⟩

/-- Allocation of a fresh record holding value `v`. -/
def Heap.alloc (h : Heap) (v : JVal) : Nat × Heap :=
  (h.nextAddr, ⟨fun x => if x = h.nextAddr then v else h.mem x, h.nextAddr + 1⟩)

/-- `MultiprocessPrefetchLazyDatasetIterator`: its live `_state` record lives
at `stateAddr`. -/
structure MultiprocessPrefetchIter where
  stateAddr : Nat

/-- Models `get_state` at line 661-662: `return copy.deepcopy(self._state)` —
a fresh cell holding a copy of the live record's value. -/
def MultiprocessPrefetchIter.get_state (it : MultiprocessPrefetchIter) (h : Heap) :
    Nat × Heap :=
  h.alloc (h.read it.stateAddr)

/-- `ThreadPrefetchLazyDatasetIterator`: its live `_state` record lives at
`stateAddr` (the record assigned from the producer queue in `__next__`). -/
structure ThreadPrefetchIter where
  stateAddr : Nat

/-- Models `get_state` at lines 888-902 once `_state` is set: `return
self._state` — the address of the live record itself, no copy. -/
def ThreadPrefetchIter.get_state (it : ThreadPrefetchIter) (h : Heap) : Nat × Heap :=
  (it.stateAddr, h)

/-- `PrefetchLazyDatasetIterator`: its only state is the integer
`_next_index` (an immutable Python int held by value). -/
structure PrefetchIter where
  next_index : Int

/-- Models `get_state` at lines 496-497: a fresh dict literal. -/
def PrefetchIter.get_state (it : PrefetchIter) (h : Heap) : Nat × Heap :=
  h.alloc (.dict [("next_index", .int it.next_index)])

/-- Concrete one-cell heap and iterators for the C9 witness. -/
def heapW : Heap := ⟨fun _ => JVal.int 7, 1⟩

def mpItW : MultiprocessPrefetchIter := ⟨0⟩

/-- The heap after the caller overwrites the record returned by `get_state`. -/
def heapW2 : Heap :=
  (mpItW.get_state heapW).2.write (mpItW.get_state heapW).1 (JVal.int 5)

/-! ### Single-bin streaming packer (C3)

Modelled from the spec: the packer implementation
(`transformations/packing.py`, class `SingleBinPackLazyIterDataset`) is not
among the sources; only its test file `transformations/packing_test.py` is.
The model below follows §4.E/§4.E.1 of the spec — one in-progress bin; an
incoming element that alone already reaches some feature's target length is
emitted immediately ahead of the buffered bin; otherwise it is appended into
the bin, each feature independently truncated to the bin's remaining capacity
(spec truncation rule); a bin is emitted when every feature is full, when no
feature of an incoming element fits (the element then starts the next bin), or
at input exhaustion (tail-padded) — with the §8 scenarios and the expectations
of `packing_test.py` fixing the points the prose leaves open.  Features are
indexed positionally: an element is the list of its per-feature token
sequences, parallel to the list `lengths` of per-feature target lengths. -/

/-- An input element: one token sequence per feature. -/
abbrev PackElement := List (List Int)

/-- Tokens already used in the bin for feature `f`. -/
def usedF (bin : List PackElement) (f : Nat) : Nat :=
  (bin.map (fun e => (e.getD f []).length)).sum

/-- Remaining capacity of the current bin, per feature. -/
def remainingCaps (lengths : List Nat) (bin : List PackElement) : List Nat :=
  (List.range lengths.length).map (fun f => lengths.getD f 0 - usedF bin f)

/-- Independent per-feature truncation of an element to the capacities `caps`
(overflowing values are dropped). -/
def truncTo (caps : List Nat) (e : PackElement) : PackElement :=
  List.zipWith List.take caps e

/-- The element alone already reaches the target length in some feature
("fully packed"); such an element is emitted immediately, jumping ahead of the
buffered bin. -/
def fullyPackedAlone (lengths : List Nat) (e : PackElement) : Bool :=
  (List.range lengths.length).any (fun f => lengths.getD f 0 ≤ (e.getD f []).length)

/-- Fit test of the spec: feature `f` of `e` fits the current bin when
`used_f + len_f(e) ≤ T_f`. -/
def anyFits (lengths : List Nat) (bin : List PackElement) (e : PackElement) : Bool :=
  (List.range lengths.length).any
    (fun f => usedF bin f + (e.getD f []).length ≤ lengths.getD f 0)

/-- Every feature of `e` fits the current bin without truncation. -/
def allFit (lengths : List Nat) (bin : List PackElement) (e : PackElement) : Bool :=
  (List.range lengths.length).all
    (fun f => usedF bin f + (e.getD f []).length ≤ lengths.getD f 0)

/-- The bin is full in every feature. -/
def binFull (lengths : List Nat) (bin : List PackElement) : Bool :=
  (List.range lengths.length).all (fun f => lengths.getD f 0 ≤ usedF bin f)

/-- Per-record segment ids: the `k`-th element of the bin (1-based `k`)
contributes its length in that feature, repeated. -/
def segsOf (k : Nat) : List (List Int) → List Nat
  | [] => []
  | xs :: rest => List.replicate xs.length k ++ segsOf (k + 1) rest

/-- Per-record positions: 0-based offsets within each source sequence. -/
def possOf : List (List Int) → List Nat
  | [] => []
  | xs :: rest => List.range xs.length ++ possOf rest

/-- One output feature, tail-padded with zeros to the target length `T`:
`(values, segment_ids, positions)`. -/
def renderFeature (T : Nat) (contribs : List (List Int)) :
    List Int × List Nat × List Nat :=
  (contribs.flatten ++ List.replicate (T - contribs.flatten.length) 0,
   segsOf 1 contribs ++ List.replicate (T - contribs.flatten.length) 0,
   possOf contribs ++ List.replicate (T - contribs.flatten.length) 0)

/-- The contributions of the bin's elements to feature `f`, in bin order. -/
def featContribs (bin : List PackElement) (f : Nat) : List (List Int) :=
  bin.map (fun e => e.getD f [])

/-- A packed output record: `(values, segment_ids, positions)` per feature. -/
abbrev PackedRecord := List (List Int × List Nat × List Nat)

/-- Render the current bin as an output record. -/
def renderBin (lengths : List Nat) (bin : List PackElement) : PackedRecord :=
  (List.range lengths.length).map
    (fun f => renderFeature (lengths.getD f 0) (featContribs bin f))

/-- One step of the streaming packer on an incoming element: returns the
records emitted by this step and the new in-progress bin. -/
def singleBinStep (lengths : List Nat) (bin : List PackElement) (e : PackElement) :
    List PackedRecord × List PackElement :=
  if fullyPackedAlone lengths e then
    ([renderBin lengths [truncTo lengths e]], bin)
  else if bin.isEmpty || anyFits lengths bin e then
    if binFull lengths (bin ++ [truncTo (remainingCaps lengths bin) e]) then
      ([renderBin lengths (bin ++ [truncTo (remainingCaps lengths bin) e])], [])
    else
      ([], bin ++ [truncTo (remainingCaps lengths bin) e])
  else
    ([renderBin lengths bin], [e])

/-- The packer over a whole input stream: fold the step over the elements and
flush the final nonempty bin, tail-padded. -/
def singleBinPack (lengths : List Nat) (inputs : List PackElement) :
    List PackedRecord :=
  let final := inputs.foldl
    (fun acc e =>
      ((acc.1 ++ (singleBinStep lengths acc.2 e).1, (singleBinStep lengths acc.2 e).2) :
        List PackedRecord × List PackElement))
    (([], []) : List PackedRecord × List PackElement)
  final.1 ++ (if final.2.isEmpty then [] else [renderBin lengths final.2])

-- Sanity checks of the model on concrete data.
example :
    prefetchElems (fun i => if i = 1 then none else some i) 4 2 false 0 [] =
      [some 0, some 2, some 3] := by decide

example :
    prefetchElems (fun i => if i = 1 then none else some i) 4 0 true 0 [] =
      [some 0, none, some 2, some 3] := by decide

example : reads 5 2 0 [] = [0, 1, 2, 3, 4] := by decide

example : reads 5 0 0 [] = [0, 1, 2, 3, 4] := by decide

example : reads 3 7 0 [] = [0, 1, 2] := by decide

example : rangeLen? 0 10 3 = some 4 := by decide

example : rangeLen? 5 5 1 = some 0 := by decide

example : rangeLen? 10 0 (-3) = some 4 := by decide

example : rangeLen? 0 10 0 = none := by decide

example : SrcDataset.getItem (.range 0 10 3) 5 = some 3 := by decide

example : SrcDataset.getItem (.range 5 5 1) 0 = none := by decide

example : SrcDataset.getItem (.shard (.range 0 10 1) 0 5) 7 = some 2 := by decide

example :
    (mkMultiprocessPrefetchDataset (.plain [.mp (.plain [])]) ⟨2⟩).isOk = false := by
  decide

example :
    (mkMultiprocessPrefetchDataset (.plain [.plain [], .plain [.plain []]]) ⟨2⟩).isOk = true := by
  decide

example : (mkMultiprocessPrefetchDataset (.plain []) ⟨0⟩).isOk = false := by decide

-- The model reproduces the single-feature scenarios S1 and S2 of the spec
-- (tests `test_pack_single_feature` and
-- `test_pack_single_feature_remainder_is_padded`).
example :
    singleBinPack [4] [[[1, 2, 3, 4]], [[5, 6]], [[11, 12, 13, 14]], [[7]], [[8]]] =
      [[([1, 2, 3, 4], [1, 1, 1, 1], [0, 1, 2, 3])],
       [([11, 12, 13, 14], [1, 1, 1, 1], [0, 1, 2, 3])],
       [([5, 6, 7, 8], [1, 1, 2, 3], [0, 1, 0, 0])]] := by decide

example :
    singleBinPack [4] [[[1, 2, 3, 4]], [[5, 6]], [[11, 12, 13, 14]], [[7]]] =
      [[([1, 2, 3, 4], [1, 1, 1, 1], [0, 1, 2, 3])],
       [([11, 12, 13, 14], [1, 1, 1, 1], [0, 1, 2, 3])],
       [([5, 6, 7, 0], [1, 1, 2, 0], [0, 1, 0, 0])]] := by decide

-- The model reproduces `test_pack_multiple_features_same_sequences_length`
-- (features ordered [inputs, targets], length structure 4/4).
example :
    singleBinPack [4, 4]
        [[[1, 2, 3, 4], [10, 20]], [[5, 6], [30, 40, 50]],
         [[11, 12, 13, 14], [31, 41, 51]], [[7], [60]]] =
      [[([1, 2, 3, 4], [1, 1, 1, 1], [0, 1, 2, 3]),
        ([10, 20, 0, 0], [1, 1, 0, 0], [0, 1, 0, 0])],
       [([11, 12, 13, 14], [1, 1, 1, 1], [0, 1, 2, 3]),
        ([31, 41, 51, 0], [1, 1, 1, 0], [0, 1, 2, 0])],
       [([5, 6, 7, 0], [1, 1, 2, 0], [0, 1, 0, 0]),
        ([30, 40, 50, 60], [1, 1, 1, 2], [0, 1, 2, 0])]] := by decide

/-! ### Basic lemmas about the prefetch model -/

theorem prefetchNext_of_le {ds : Nat → Option α} {L B : Nat} {an : Bool} {i : Nat}
    (buf : List (Option α)) (h : L ≤ i) : prefetchNext ds L B an i buf = none := by
  unfold prefetchNext
  have : L - i = 0 := by omega
  rw [this]
  rfl

theorem prefetchNextF_bound {ds : Nat → Option α} {L B : Nat} {an : Bool} :
    ∀ {fuel i buf e i' buf'},
      prefetchNextF ds L B an fuel i buf = some (e, i', buf') → i < i' ∧ i' ≤ L := by
  intro fuel
  induction fuel with
  | zero => intro i buf e i' buf' h; exact absurd h (by simp [prefetchNextF])
  | succ n ih =>
    intro i buf e i' buf' h
    rw [prefetchNextF] at h
    split at h
    · exact absurd h (by simp)
    · split at h
      case isTrue hL hlt =>
        split at h
        · split at h
          · exact absurd h (by simp)
          · split at h
            · simp only [Option.some.injEq, Prod.mk.injEq] at h
              omega
            · have := ih h
              omega
        · split at h
          · simp only [Option.some.injEq, Prod.mk.injEq] at h
            omega
          · have := ih h
            omega
      case isFalse => exact absurd h (by simp)

theorem prefetchNext_bound {ds : Nat → Option α} {L B : Nat} {an : Bool}
    {i : Nat} {buf : List (Option α)} {e : Option α} {i' : Nat} {buf' : List (Option α)}
    (h : prefetchNext ds L B an i buf = some (e, i', buf')) : i < i' ∧ i' ≤ L :=
  prefetchNextF_bound h

theorem prefetchElemsF_fuel {ds : Nat → Option α} {L B : Nat} {an : Bool} :
    ∀ {fuel fuel' : Nat} {i : Nat} {buf : List (Option α)},
      L ≤ i + fuel → L ≤ i + fuel' →
      prefetchElemsF ds L B an fuel i buf = prefetchElemsF ds L B an fuel' i buf := by
  intro fuel
  induction fuel with
  | zero =>
    intro fuel' i buf h h'
    have hnone : prefetchNext ds L B an i buf = none := prefetchNext_of_le buf (by omega)
    cases fuel' with
    | zero => rfl
    | succ m => simp [prefetchElemsF, hnone]
  | succ n ih =>
    intro fuel' i buf h h'
    cases fuel' with
    | zero =>
      have hnone : prefetchNext ds L B an i buf = none := prefetchNext_of_le buf (by omega)
      simp [prefetchElemsF, hnone]
    | succ m =>
      cases hn : prefetchNext ds L B an i buf with
      | none => rw [prefetchElemsF, prefetchElemsF, hn]
      | some v =>
        obtain ⟨e, i', buf'⟩ := v
        have hb := prefetchNext_bound hn
        rw [prefetchElemsF, prefetchElemsF, hn]
        exact congrArg (e :: ·) (ih (by omega) (by omega))

/-- Canonical unfolding of the delivered-elements function: it is the unfolding
of repeated `__next__` calls. -/
theorem prefetchElems_unfold (ds : Nat → Option α) (L B : Nat) (an : Bool)
    (i : Nat) (buf : List (Option α)) :
    prefetchElems ds L B an i buf =
      match prefetchNext ds L B an i buf with
      | none => []
      | some (e, i', buf') => e :: prefetchElems ds L B an i' buf' := by
  cases hn : prefetchNext ds L B an i buf with
  | none =>
    show prefetchElems ds L B an i buf = []
    unfold prefetchElems
    cases hf : L - i with
    | zero => rfl
    | succ m => rw [prefetchElemsF, hn]
  | some v =>
    obtain ⟨e, i', buf'⟩ := v
    have hb := prefetchNext_bound hn
    show prefetchElems ds L B an i buf = e :: prefetchElems ds L B an i' buf'
    unfold prefetchElems
    have hf : L - i = (L - i - 1) + 1 := by omega
    rw [hf, prefetchElemsF, hn]
    exact congrArg (e :: ·) (prefetchElemsF_fuel (by omega) (by omega))

/-! ### The prefetch window invariant -/

theorem window_ne_nil {ds : Nat → Option α} {L B i : Nat} (hi : i < L) (hB : 0 < B) :
    window ds L B i ≠ [] := by
  unfold window
  intro h
  have := congrArg List.length h
  simp [List.length_range'] at this
  omega

theorem window_cons {ds : Nat → Option α} {L B i : Nat} (hi : i < L) (hB : 0 < B) :
    window ds L B i =
      ds i :: (List.range' (i + 1) (min (i + B) L - (i + 1))).map ds := by
  unfold window
  have hm : min (i + B) L - i = (min (i + B) L - (i + 1)) + 1 := by omega
  rw [hm, List.range'_succ, List.map_cons]

theorem window_step_lt {ds : Nat → Option α} {L B i : Nat} (hB : 0 < B)
    (h : i + B < L) :
    (List.range' (i + 1) (min (i + B) L - (i + 1))).map ds ++ [ds (i + B)] =
      window ds L B (i + 1) := by
  unfold window
  have h1 : min (i + B) L - (i + 1) = B - 1 := by omega
  have h2 : min (i + 1 + B) L - (i + 1) = B := by omega
  rw [h1, h2]
  have h3 : List.range' (i + 1) B = List.range' (i + 1) (B - 1) ++ [i + B] := by
    have hb : B = (B - 1) + 1 := by omega
    rw [hb, List.range'_concat]
    simp
    omega
  rw [h3, List.map_append]
  rfl

theorem window_step_ge {ds : Nat → Option α} {L B i : Nat}
    (h : ¬ i + B < L) :
    (List.range' (i + 1) (min (i + B) L - (i + 1))).map ds = window ds L B (i + 1) := by
  unfold window
  have h1 : min (i + B) L - (i + 1) = min (i + 1 + B) L - (i + 1) := by omega
  rw [h1]

/-- Key invariant step: with a positive buffer size and a buffer that is either
unset (`None`) or the current prefetch window, a `__next__` call behaves exactly
like the synchronous `B = 0` iterator on `next_index`, and leaves the window of
the new index in the buffer. -/
theorem prefetchNextF_window {ds : Nat → Option α} {L B : Nat} {an : Bool} (hB : 0 < B) :
    ∀ {fuel i buf}, (buf = [] ∨ buf = window ds L B i) →
      prefetchNextF ds L B an fuel i buf =
        (prefetchNextF ds L 0 an fuel i []).map
          (fun r => (r.1, r.2.1, window ds L B r.2.1)) := by
  intro fuel
  induction fuel with
  | zero => intro i buf _; rfl
  | succ n ih =>
    intro i buf hinv
    rw [prefetchNextF, prefetchNextF]
    by_cases hL : i = L
    · simp [hL]
    · simp only [hL, if_false]
      by_cases hlt : i < L
      · simp only [hlt, if_true, hB, if_true]
        have hscrut : (if buf.isEmpty then window ds L B i else buf) = window ds L B i := by
          rcases hinv with h | h
          · rw [h]; rfl
          · rw [h]
            have : (window ds L B i).isEmpty = false := by
              cases hw : window ds L B i with
              | nil => exact absurd hw (window_ne_nil hlt hB)
              | cons a l => rfl
            rw [this]
            rfl
        rw [hscrut, window_cons hlt hB]
        simp only [Nat.lt_irrefl, if_false]
        by_cases hemit : (an || (ds i).isSome) = true
        · rw [if_pos hemit, if_pos hemit]
          by_cases hg : i + B < L
          · rw [if_pos hg, window_step_lt hB hg]
            rfl
          · rw [if_neg hg, window_step_ge hg]
            rfl
        · rw [if_neg hemit, if_neg hemit]
          by_cases hg : i + B < L
          · rw [if_pos hg, window_step_lt hB hg]
            exact ih (Or.inr rfl)
          · rw [if_neg hg, window_step_ge hg]
            exact ih (Or.inr rfl)
      · simp [hlt]

theorem prefetchNext_window {ds : Nat → Option α} {L B : Nat} {an : Bool} (hB : 0 < B)
    {i : Nat} {buf : List (Option α)} (hinv : buf = [] ∨ buf = window ds L B i) :
    prefetchNext ds L B an i buf =
      (prefetchNext ds L 0 an i []).map (fun r => (r.1, r.2.1, window ds L B r.2.1)) :=
  prefetchNextF_window hB hinv

theorem prefetchNext_zero_buf {ds : Nat → Option α} {L : Nat} {an : Bool} :
    ∀ {fuel i buf e i' buf'},
      prefetchNextF ds L 0 an fuel i buf = some (e, i', buf') → buf' = buf := by
  intro fuel
  induction fuel with
  | zero => intro i buf e i' buf' h; exact absurd h (by simp [prefetchNextF])
  | succ n ih =>
    intro i buf e i' buf' h
    rw [prefetchNextF] at h
    split at h
    · exact absurd h (by simp)
    · split at h
      · split at h
        · omega
        · split at h
          · simp only [Option.some.injEq, Prod.mk.injEq] at h
            exact h.2.2.symm
          · exact ih h
      · exact absurd h (by simp)

/-- With a positive buffer size and a valid buffer, the whole delivered
sequence coincides with that of the synchronous `B = 0` iterator. -/
theorem prefetchElems_window {ds : Nat → Option α} {L B : Nat} {an : Bool} (hB : 0 < B) :
    ∀ {n i buf}, L - i ≤ n → (buf = [] ∨ buf = window ds L B i) →
      prefetchElems ds L B an i buf = prefetchElems ds L 0 an i [] := by
  intro n
  induction n with
  | zero =>
    intro i buf h hinv
    have h0 : prefetchNext ds L B an i buf = none := prefetchNext_of_le buf (by omega)
    have h1 : prefetchNext ds L 0 an i ([] : List (Option α)) = none :=
      prefetchNext_of_le [] (by omega)
    rw [prefetchElems_unfold, prefetchElems_unfold, h0, h1]
  | succ n ih =>
    intro i buf h hinv
    rw [prefetchElems_unfold, prefetchElems_unfold, prefetchNext_window hB hinv]
    cases hn : prefetchNext ds L 0 an i ([] : List (Option α)) with
    | none => rfl
    | some v =>
      obtain ⟨e, i', buf'⟩ := v
      have hb := prefetchNext_bound hn
      have hbuf : buf' = [] := prefetchNext_zero_buf hn
      subst hbuf
      simp only [Option.map_some]
      show e :: prefetchElems ds L B an i' (window ds L B i') =
        e :: prefetchElems ds L 0 an i' []
      exact congrArg (e :: ·) (ih (by omega) (Or.inr rfl))

/-! ### Characterization of the synchronous iterator (`B = 0`) -/

theorem prefetchNext_zero_emit {ds : Nat → Option α} {L : Nat} {an : Bool} {i : Nat}
    (buf : List (Option α)) (hi : i < L) (hemit : (an || (ds i).isSome) = true) :
    prefetchNext ds L 0 an i buf = some (ds i, i + 1, buf) := by
  unfold prefetchNext
  have hf : L - i = (L - (i + 1)) + 1 := by omega
  rw [hf, prefetchNextF]
  simp [show ¬ i = L by omega, hi, hemit]

theorem prefetchNext_zero_skip {ds : Nat → Option α} {L : Nat} {an : Bool} {i : Nat}
    (buf : List (Option α)) (hi : i < L) (hemit : ¬ (an || (ds i).isSome) = true) :
    prefetchNext ds L 0 an i buf = prefetchNext ds L 0 an (i + 1) buf := by
  unfold prefetchNext
  have hf : L - i = (L - (i + 1)) + 1 := by omega
  rw [hf, prefetchNextF]
  simp [show ¬ i = L by omega, hi, hemit]

/-- For the synchronous iterator, restoring the index recorded after `k`
delivered elements reproduces exactly the suffix after the first `k`
elements. -/
theorem prefetchStateAfter_zero_suffix {ds : Nat → Option α} {L : Nat} {an : Bool} :
    ∀ {k : Nat} {i : Nat} {buf : List (Option α)} {s : Nat × List (Option α)},
      prefetchStateAfter ds L 0 an k (i, buf) = some s →
      s.2 = buf ∧ prefetchElems ds L 0 an s.1 buf = (prefetchElems ds L 0 an i buf).drop k := by
  intro k
  induction k with
  | zero =>
    intro i buf s h
    simp only [prefetchStateAfter, Option.some.injEq] at h
    subst h
    exact ⟨rfl, rfl⟩
  | succ k ih =>
    intro i buf s h
    rw [prefetchStateAfter] at h
    cases hn : prefetchNext ds L 0 an i buf with
    | none => rw [hn] at h; exact absurd h (by simp)
    | some v =>
      obtain ⟨e, i', buf'⟩ := v
      rw [hn] at h
      have hbuf : buf' = buf := prefetchNext_zero_buf hn
      rw [hbuf] at h
      obtain ⟨h1, h2⟩ := ih h
      refine ⟨h1, ?_⟩
      rw [prefetchElems_unfold ds L 0 an i buf, hn, hbuf]
      simpa using h2

/-- With a positive buffer size, the per-step trajectory of `next_index`
coincides with that of the synchronous iterator, and the buffer invariant is
maintained. -/
theorem prefetchStateAfter_window {ds : Nat → Option α} {L B : Nat} {an : Bool}
    (hB : 0 < B) :
    ∀ {k : Nat} {i : Nat} {buf : List (Option α)} {s : Nat × List (Option α)},
      (buf = [] ∨ buf = window ds L B i) →
      prefetchStateAfter ds L B an k (i, buf) = some s →
      prefetchStateAfter ds L 0 an k (i, ([] : List (Option α))) = some (s.1, []) := by
  intro k
  induction k with
  | zero =>
    intro i buf s hinv h
    simp only [prefetchStateAfter, Option.some.injEq] at h
    subst h
    rfl
  | succ k ih =>
    intro i buf s hinv h
    rw [prefetchStateAfter] at h
    rw [prefetchNext_window hB hinv] at h
    rw [prefetchStateAfter]
    cases hn : prefetchNext ds L 0 an i ([] : List (Option α)) with
    | none => rw [hn] at h; exact absurd h (by simp)
    | some v =>
      obtain ⟨e, i', buf'⟩ := v
      rw [hn] at h
      have hbuf : buf' = [] := prefetchNext_zero_buf hn
      subst hbuf
      exact ih (Or.inr rfl) h

/-- Elements delivered by the synchronous iterator are exactly the dataset
values in index order, filtered by the sparse-element rule. -/
theorem prefetchElems_zero_eq_filter {ds : Nat → Option α} {L : Nat} {an : Bool} :
    ∀ {n i : Nat} {buf : List (Option α)}, L - i ≤ n →
      prefetchElems ds L 0 an i buf =
        ((List.range' i (L - i)).map ds).filter (fun e => an || e.isSome) := by
  intro n
  induction n with
  | zero =>
    intro i buf h
    have h0 : L - i = 0 := by omega
    rw [prefetchElems_unfold, prefetchNext_of_le buf (by omega), h0]
    rfl
  | succ n ih =>
    intro i buf h
    by_cases hi : i < L
    · have hr : L - i = (L - (i + 1)) + 1 := by omega
      rw [hr, List.range'_succ, List.map_cons, List.filter_cons]
      by_cases hemit : (an || (ds i).isSome) = true
      · rw [prefetchElems_unfold, prefetchNext_zero_emit buf hi hemit, if_pos hemit]
        exact congrArg (ds i :: ·) (ih (by omega))
      · rw [prefetchElems_unfold, prefetchNext_zero_skip buf hi hemit,
          ← prefetchElems_unfold, if_neg hemit]
        exact ih (by omega)
    · have h0 : L - i = 0 := by omega
      rw [prefetchElems_unfold, prefetchNext_of_le buf (by omega), h0]
      rfl

/-- C1.  Checkpoint sufficiency of `PrefetchLazyDatasetIterator`: for every map
dataset, every prefetch-buffer configuration and every number `k` of elements
already consumed, recording the state via `get_state` after the `k`-th
`__next__`, installing it with `set_state` on a fresh iterator over the same
dataset, and consuming to exhaustion yields exactly the suffix of the
uninterrupted run after its first `k` elements. -/
theorem prefetch_checkpoint_sufficiency (ds : Nat → Option α) (L B : Nat) (an : Bool)
    (k : Nat) (s : Nat × List (Option α))
    (h : prefetchStateAfter ds L B an k prefetchFresh = some s) :
    prefetchElems ds L B an
        (prefetchSetState B (prefetchFresh (α := α)) (prefetchGetState s)).1
        (prefetchSetState B (prefetchFresh (α := α)) (prefetchGetState s)).2 =
      (prefetchElems ds L B an (prefetchFresh (α := α)).1 (prefetchFresh (α := α)).2).drop k := by
  have hset : prefetchSetState B (prefetchFresh (α := α)) (prefetchGetState s) = (s.1, []) := by
    simp [prefetchSetState, prefetchFresh, prefetchGetState]
  rw [hset]
  show prefetchElems ds L B an s.1 [] = (prefetchElems ds L B an 0 []).drop k
  rcases Nat.eq_zero_or_pos B with hB | hB
  · subst hB
    obtain ⟨h1, h2⟩ := prefetchStateAfter_zero_suffix h
    exact h2
  · have hs := prefetchStateAfter_window hB (Or.inl rfl) h
    obtain ⟨-, h2⟩ := prefetchStateAfter_zero_suffix hs
    rw [prefetchElems_window hB (n := L) (by omega) (Or.inl rfl),
      prefetchElems_window hB (n := L) (by omega) (Or.inl rfl)]
    exact h2

/-- Witness for C1 at a concrete sparse dataset with buffer size 2 and two
consumed elements. -/
theorem prefetch_checkpoint_sufficiency_witness :
    prefetchStateAfter (fun i => if i = 1 then none else some (i : Int)) 4 2 false 2
        prefetchFresh = some (3, [some 3]) ∧
      prefetchElems (fun i => if i = 1 then none else some (i : Int)) 4 2 false
          (prefetchSetState 2 (prefetchFresh (α := Int))
            (prefetchGetState ((3 : Nat), [some (3 : Int)]))).1
          (prefetchSetState 2 (prefetchFresh (α := Int))
            (prefetchGetState ((3 : Nat), [some (3 : Int)]))).2 =
        (prefetchElems (fun i => if i = 1 then none else some (i : Int)) 4 2 false
            (prefetchFresh (α := Int)).1 (prefetchFresh (α := Int)).2).drop 2 :=
  ⟨by decide,
    prefetch_checkpoint_sufficiency _ 4 2 false 2 ((3 : Nat), [some (3 : Int)]) (by decide)⟩

/-- C2.  Order preservation of thread-pool prefetching: for every map dataset
and every positive prefetch-buffer size, the delivered sequence equals, element
for element, the one delivered by the synchronous degenerate iterator with
buffer size 0 (prefetching never reorders, drops, or duplicates elements). -/
theorem prefetch_order_preservation (ds : Nat → Option α) (L B : Nat) (an : Bool)
    (hB : 0 < B) :
    prefetchElems ds L B an (prefetchFresh (α := α)).1 (prefetchFresh (α := α)).2 =
      prefetchElems ds L 0 an (prefetchFresh (α := α)).1 (prefetchFresh (α := α)).2 :=
  prefetchElems_window hB (n := L) (by omega) (Or.inl rfl)

/-- Witness for C2 with buffer size 2 over a concrete sparse dataset. -/
theorem prefetch_order_preservation_witness :
    (0 : Nat) < 2 ∧
      prefetchElems (fun i => if i = 1 then none else some (i : Int)) 4 2 false
          (prefetchFresh (α := Int)).1 (prefetchFresh (α := Int)).2 =
        prefetchElems (fun i => if i = 1 then none else some (i : Int)) 4 0 false
          (prefetchFresh (α := Int)).1 (prefetchFresh (α := Int)).2 :=
  ⟨by decide, prefetch_order_preservation _ 4 2 false (by decide)⟩

/-- C4.  Sparse transparency: with `allow_nones = false` the prefetch iterator
never delivers a `None` element and transparently advances past the `None`s —
the delivered sequence is exactly the non-`None` dataset values in index
order — while with `allow_nones = true` it delivers every element, including
the `None`s, in position. -/
theorem prefetch_sparse_transparency (ds : Nat → Option α) (L B : Nat) :
    prefetchElems ds L B false (prefetchFresh (α := α)).1 (prefetchFresh (α := α)).2 =
        ((List.range L).map ds).filter Option.isSome ∧
      prefetchElems ds L B true (prefetchFresh (α := α)).1 (prefetchFresh (α := α)).2 =
        (List.range L).map ds := by
  have key : ∀ an, prefetchElems ds L B an 0 [] =
      ((List.range' 0 L).map ds).filter (fun e => an || e.isSome) := by
    intro an
    have h0 := @prefetchElems_zero_eq_filter _ ds L an L 0 [] (by omega)
    rcases Nat.eq_zero_or_pos B with hB | hB
    · subst hB; simpa using h0
    · rw [prefetchElems_window hB (n := L) (by omega) (Or.inl rfl)]
      simpa using h0
  constructor
  · show prefetchElems ds L B false 0 [] =
      ((List.range L).map ds).filter Option.isSome
    rw [key false, List.range_eq_range']
    simp [Bool.false_or]
  · show prefetchElems ds L B true 0 [] = (List.range L).map ds
    rw [key true, List.range_eq_range']
    simp

theorem readsF_zero_buffer {L : Nat} :
    ∀ {fuel i : Nat} {buf : List Nat}, L ≤ i + fuel →
      readsF L 0 fuel i buf = List.range' i (L - i) := by
  intro fuel
  induction fuel with
  | zero =>
    intro i buf h
    have h0 : L - i = 0 := by omega
    rw [h0]
    rfl
  | succ n ih =>
    intro i buf h
    rw [readsF]
    by_cases hL : i = L
    · simp [hL]
    · by_cases hi : i < L
      · simp only [hL, if_false, hi, if_true, Nat.lt_irrefl, if_false]
        rw [ih (by omega)]
        have hr : L - i = (L - (i + 1)) + 1 := by omega
        rw [hr, List.range'_succ]
      · simp [hL, hi, show L - i = 0 by omega]

/-- Under the window invariant, the remaining reads are exactly the indices
past the current window. -/
theorem readsF_window {L B : Nat} (hB : 0 < B) :
    ∀ {fuel i : Nat}, L ≤ i + fuel →
      readsF L B fuel i (List.range' i (min (i + B) L - i)) =
        List.range' (min (i + B) L) (L - min (i + B) L) := by
  intro fuel
  induction fuel with
  | zero =>
    intro i h
    have h0 : min (i + B) L = L := by omega
    rw [h0, Nat.sub_self]
    rfl
  | succ n ih =>
    intro i h
    rw [readsF]
    by_cases hL : i = L
    · have h0 : min (i + B) L = L := by omega
      rw [if_pos hL, h0, Nat.sub_self]
      rfl
    · by_cases hi : i < L
      · simp only [hL, if_false, hi, if_true, hB, if_true]
        have hne : (List.range' i (min (i + B) L - i)).isEmpty = false := by
          have : min (i + B) L - i = (min (i + B) L - (i + 1)) + 1 := by omega
          rw [this, List.range'_succ]
          rfl
        rw [hne]
        have hdec : List.range' i (min (i + B) L - i) =
            i :: List.range' (i + 1) (min (i + B) L - (i + 1)) := by
          have : min (i + B) L - i = (min (i + B) L - (i + 1)) + 1 := by omega
          rw [this, List.range'_succ]
        rw [hdec]
        simp only [Bool.false_eq_true, if_false, List.nil_append]
        by_cases hg : i + B < L
        · have hrest : List.range' (i + 1) (min (i + B) L - (i + 1)) ++ [i + B] =
              List.range' (i + 1) (min (i + 1 + B) L - (i + 1)) := by
            have h1 : min (i + B) L - (i + 1) = B - 1 := by omega
            have h2 : min (i + 1 + B) L - (i + 1) = B := by omega
            rw [h1, h2]
            have hb : B = (B - 1) + 1 := by omega
            rw [hb, List.range'_concat]
            simp
            omega
          simp only [hg, if_true]
          rw [hrest, ih (by omega)]
          have hm : min (i + B) L = i + B := by omega
          have hm' : min (i + 1 + B) L = (i + B) + 1 := by omega
          rw [hm, hm']
          have hr : L - (i + B) = (L - ((i + B) + 1)) + 1 := by omega
          rw [hr, List.range'_succ]
          rfl
        · have hrest : List.range' (i + 1) (min (i + B) L - (i + 1)) =
              List.range' (i + 1) (min (i + 1 + B) L - (i + 1)) := by
            have : min (i + B) L - (i + 1) = min (i + 1 + B) L - (i + 1) := by omega
            rw [this]
          simp only [hg, if_false]
          rw [hrest, ih (by omega)]
          have hm : min (i + B) L = L := by omega
          have hm' : min (i + 1 + B) L = L := by omega
          rw [hm, hm', Nat.sub_self]
          rfl
      · have h0 : min (i + B) L = L := by omega
        rw [if_neg hL, if_neg hi, h0, Nat.sub_self]
        rfl

/-- The first `__next__` call on an unset buffer performs the initial window of
reads and then behaves like a run whose buffer is the window. -/
theorem readsF_nil_eq {L B : Nat} (hB : 0 < B) :
    ∀ {fuel i : Nat}, L ≤ i + fuel →
      readsF L B fuel i [] =
        List.range' i (min (i + B) L - i) ++
          readsF L B fuel i (List.range' i (min (i + B) L - i)) := by
  intro fuel i h
  cases fuel with
  | zero =>
    have h0 : min (i + B) L - i = 0 := by omega
    rw [h0]
    rfl
  | succ n =>
    by_cases hL : i = L
    · have h0 : min (i + B) L - i = 0 := by omega
      rw [h0]
      rfl
    · by_cases hi : i < L
      · have hdec : List.range' i (min (i + B) L - i) =
            i :: List.range' (i + 1) (min (i + B) L - (i + 1)) := by
          have : min (i + B) L - i = (min (i + B) L - (i + 1)) + 1 := by omega
          rw [this, List.range'_succ]
        rw [readsF, readsF]
        simp only [hL, if_false, hi, if_true, hB, if_true]
        rw [hdec]
        have hne : (i :: List.range' (i + 1) (min (i + B) L - (i + 1))).isEmpty = false := rfl
        rw [hne]
        simp
      · have h0 : min (i + B) L - i = 0 := by omega
        rw [h0]
        have hnone : ∀ buf : List Nat, readsF L B (n + 1) i buf = [] := by
          intro buf
          rw [readsF]
          simp [hL, hi]
        rw [hnone, hnone]
        rfl

/-- C10.  One-epoch reading discipline of `PrefetchLazyDatasetIterator`: a
fresh iterator over a map dataset of declared length `L` submits exactly the
indices `0, 1, ..., L - 1`, each once and in increasing order — never an index
`≥ L`, neither synchronously nor through the prefetch window — and once
`next_index` has reached `L`, `__next__` raises `StopIteration`, so the iter
conversion yields exactly one epoch. -/
theorem prefetch_reads_exactly_one_epoch {α : Type} (L B : Nat) :
    reads L B 0 [] = List.range L ∧
      ∀ (ds : Nat → Option α) (an : Bool) (buf : List (Option α)),
        prefetchNext ds L B an L buf = none := by
  constructor
  · rcases Nat.eq_zero_or_pos B with hB | hB
    · subst hB
      unfold reads
      rw [readsF_zero_buffer (by omega), List.range_eq_range']
      simp
    · unfold reads
      rw [readsF_nil_eq hB (by omega), readsF_window hB (by omega)]
      have h0 : (0 : Nat) + B = B := by omega
      rw [h0]
      simp only [Nat.sub_zero]
      have := List.range'_append_1 0 (min B L) (L - min B L)
      simp only [Nat.zero_add] at this
      rw [this]
      have : L - min B L + min B L = L := by omega
      rw [this, List.range_eq_range']
  · intro ds an buf
    exact prefetchNext_of_le buf (by omega)

/-- On a well-formed dataset, `at(i)` succeeds for every integer index. -/
theorem SrcDataset.getItem_total :
    ∀ (d : SrcDataset), d.wfB = true → ∀ i : Int, (d.getItem i).isSome = true := by
  intro d
  induction d with
  | range a b s =>
    intro hwf i
    unfold SrcDataset.wfB at hwf
    unfold SrcDataset.getItem
    cases hL : rangeLen? a b s with
    | none => rw [hL] at hwf; simp at hwf
    | some L =>
      rw [hL] at hwf
      simp only [Option.getD_some, decide_eq_true_eq] at hwf
      have hne0 : ¬ L = 0 := by omega
      simp [hne0]
  | shard p st en ih =>
    intro hwf i
    unfold SrcDataset.wfB at hwf
    simp only [Bool.and_eq_true, decide_eq_true_eq] at hwf
    obtain ⟨hlt, hp⟩ := hwf
    unfold SrcDataset.getItem
    have hne : ¬ (en - st = 0) := by omega
    simp only [hne, if_false]
    cases hN : p.length? with
    | none =>
      exfalso
      cases p with
      | range a b s =>
        simp only [SrcDataset.length?] at hN
        simp only [SrcDataset.wfB] at hp
        rw [hN] at hp
        simp at hp
      | shard q st' en' => simp [SrcDataset.length?] at hN
    | some N => exact ih hp _

/-- The CPython range-length formula computes the rational ceiling. -/
theorem rangeLen_eq_ceil {d s : Int} (hs : 0 < s) (hd : 0 < d) :
    (((d.toNat + (s.toNat - 1)) / s.toNat : Nat) : Int) = ⌈(d : ℚ) / (s : ℚ)⌉ := by
  have hmn : (0 : Nat) < s.toNat := by omega
  have hdn : (0 : Nat) < d.toNat := by omega
  set n := d.toNat with hn
  set m := s.toNat with hm
  set q := (n + (m - 1)) / m with hq
  have hceil : q = n ⌈/⌉ m := by
    rw [Nat.ceilDiv_eq_add_pred_div]
    have : n + (m - 1) = n + m - 1 := by omega
    rw [hq, this]
  have h1 : n ≤ m * q := by
    have h := le_smul_ceilDiv (α := ℕ) (β := ℕ) (b := n) hmn
    rw [smul_eq_mul] at h
    rw [hceil]
    exact h
  have hq1 : 1 ≤ q := by
    rcases Nat.eq_zero_or_pos q with h0 | h0
    · rw [h0, Nat.mul_zero] at h1; omega
    · omega
  have h2 : m * (q - 1) < n := by
    by_contra hc
    push_neg at hc
    have hle : n ⌈/⌉ m ≤ q - 1 := (ceilDiv_le_iff_le_mul hmn).mpr hc
    rw [← hceil] at hle
    omega
  have hdq : (d : ℚ) = (n : ℚ) := by
    have : ((n : Int)) = d := Int.toNat_of_nonneg (by omega)
    exact_mod_cast this.symm
  have hsq : (s : ℚ) = (m : ℚ) := by
    have : ((m : Int)) = s := Int.toNat_of_nonneg (by omega)
    exact_mod_cast this.symm
  have hmq : (0 : ℚ) < (m : ℚ) := by exact_mod_cast hmn
  symm
  rw [Int.ceil_eq_iff, hdq, hsq]
  constructor
  · rw [lt_div_iff₀ hmq]
    have hcast : ((((q : Nat) : Int) : ℚ)) - 1 = ((q - 1 : Nat) : ℚ) := by
      rw [Nat.cast_sub hq1]
      push_cast
      ring
    rw [hcast]
    have : ((q - 1 : Nat) : ℚ) * (m : ℚ) = ((m * (q - 1) : Nat) : ℚ) := by push_cast; ring
    rw [this]
    exact_mod_cast h2
  · rw [div_le_iff₀ hmq]
    have : (((q : Nat) : Int) : ℚ) * (m : ℚ) = ((m * q : Nat) : ℚ) := by push_cast; ring
    rw [this]
    exact_mod_cast h1

/-- C6.  `RangeLazyMapDataset`: for every `(start, stop, step)` whose range has
a positive number of elements, the declared length equals
`⌈(stop - start) / step⌉`, and for every index `i ≥ 0`,
`at(i) = start + (i mod length) * step` (indices past the length wrap around
modulo the length). -/
theorem range_length_ceil_and_at (a b s : Int) (L : Nat)
    (hL : rangeLen? a b s = some L) (hpos : 0 < L) :
    (L : Int) = ⌈((b - a : Int) : ℚ) / ((s : Int) : ℚ)⌉ ∧
      ∀ i : Int, 0 ≤ i →
        (SrcDataset.range a b s).getItem i = some (a + Int.emod i L * s) := by
  constructor
  · unfold rangeLen? at hL
    by_cases hs0 : s = 0
    · rw [if_pos hs0] at hL
      exact absurd hL (by simp)
    · rw [if_neg hs0] at hL
      by_cases hs : 0 < s
      · rw [if_pos hs] at hL
        simp only [Option.some.injEq] at hL
        have hd : 0 < b - a := by
          by_contra hc
          push_neg at hc
          have h0 : (b - a).toNat = 0 := by omega
          rw [h0] at hL
          have : (0 + (s.toNat - 1)) / s.toNat = 0 :=
            Nat.div_eq_of_lt (by omega)
          omega
        rw [← hL]
        exact rangeLen_eq_ceil hs hd
      · rw [if_neg hs] at hL
        simp only [Option.some.injEq] at hL
        have hsneg : s < 0 := by omega
        have hd : 0 < a - b := by
          by_contra hc
          push_neg at hc
          have h0 : (a - b).toNat = 0 := by omega
          rw [h0] at hL
          have : (0 + ((-s).toNat - 1)) / (-s).toNat = 0 :=
            Nat.div_eq_of_lt (by omega)
          omega
        have hrw : ((b - a : Int) : ℚ) / ((s : Int) : ℚ) =
            ((a - b : Int) : ℚ) / (((-s : Int)) : ℚ) := by
          push_cast
          rw [div_neg, ← neg_div, neg_sub]
        rw [hrw, ← hL]
        exact rangeLen_eq_ceil (by omega) hd
  · intro i hi
    simp [SrcDataset.getItem, hL, show ¬ L = 0 by omega]

/-- Witness for C6 at the range `(0, 10, 3)` of length `⌈10/3⌉ = 4`. -/
theorem range_length_ceil_and_at_witness :
    rangeLen? 0 10 3 = some 4 ∧ (0 : Nat) < 4 ∧
      (((4 : Nat) : Int) = ⌈((10 - 0 : Int) : ℚ) / ((3 : Int) : ℚ)⌉ ∧
        ∀ i : Int, 0 ≤ i →
          (SrcDataset.range 0 10 3).getItem i = some (0 + Int.emod i 4 * 3)) :=
  ⟨by decide, by decide, range_length_ceil_and_at 0 10 3 4 (by decide) (by decide)⟩

/-- Counterexample to C7 as stated: for the range with `start = stop = 5`
(declared length 0), `at(0)` does not return a value — `index % self._length`
raises `ZeroDivisionError` (embedded as `none`). -/
theorem range_zero_length_at_fails :
    SrcDataset.getItem (.range 5 5 1) 0 = none := by decide

/-- C7 (amended).  For every map dataset of the source built with a positive
declared length — a `Range` whose range is nonempty, and a `Shard` with a
nonempty split over such a dataset — `at(i)` is defined for every index
`i ≥ 0`: it returns a value and never fails with an arithmetic or lookup
error. -/
theorem getitem_defined_on_positive_length (d : SrcDataset) (h : d.wfB = true)
    (i : Int) (_hi : 0 ≤ i) : (d.getItem i).isSome = true :=
  SrcDataset.getItem_total d h i

/-- Witness for amended C7: a shard of a range, at index 7. -/
theorem getitem_defined_on_positive_length_witness :
    (SrcDataset.shard (.range 0 10 1) 0 5).wfB = true ∧ (0 : Int) ≤ 7 ∧
      ((SrcDataset.shard (.range 0 10 1) 0 5).getItem 7).isSome = true :=
  ⟨by decide, by decide,
    getitem_defined_on_positive_length (.shard (.range 0 10 1) 0 5) (by decide) 7 (by decide)⟩

/-- Counterexample to C8 as stated: `at(-1)` on the range `(0, 5, 1)` is not
rejected with an error; Python's modulo wraps the negative index and the call
returns the element `4`. -/
theorem negative_at_returns_element :
    SrcDataset.getItem (.range 0 5 1) (-1) = some 4 := by decide

/-- C8 (amended).  For every source map dataset with a positive declared
length and every negative index `i < 0`, `at(i)` is not rejected: Python's
floor-modulo wraps the negative index, and the call returns an element. -/
theorem negative_at_wraps (d : SrcDataset) (h : d.wfB = true)
    (i : Int) (_hi : i < 0) : (d.getItem i).isSome = true :=
  SrcDataset.getItem_total d h i

/-- Witness for amended C8 at the range `(0, 5, 1)` and index `-1`. -/
theorem negative_at_wraps_witness :
    (SrcDataset.range 0 5 1).wfB = true ∧ (-1 : Int) < 0 ∧
      ((SrcDataset.range 0 5 1).getItem (-1)).isSome = true :=
  ⟨by decide, by decide, negative_at_wraps (.range 0 5 1) (by decide) (-1) (by decide)⟩

theorem DagNode.weightList_append (l l' : List DagNode) :
    DagNode.weightList (l ++ l') = DagNode.weightList l + DagNode.weightList l' := by
  induction l with
  | nil => simp [DagNode.weightList]
  | cons d ds ih => simp [DagNode.weightList, ih]; omega

theorem containsMPList_append (l l' : List DagNode) :
    containsMPList (l ++ l') = (containsMPList l || containsMPList l') := by
  induction l with
  | nil => simp [containsMPList]
  | cons d ds ih => simp [containsMPList, ih, Bool.or_assoc]

theorem validateLoopF_eq_containsMPList :
    ∀ (n : Nat) (l : List DagNode), DagNode.weightList l ≤ n →
      validateLoopF n l = containsMPList l := by
  intro n
  induction n with
  | zero =>
    intro l h
    cases l with
    | nil => rfl
    | cons d ds =>
      exfalso
      cases d <;> simp [DagNode.weightList, DagNode.weight] at h
  | succ n ih =>
    intro l h
    cases l with
    | nil => rfl
    | cons d ds =>
      cases d with
      | mp p => rfl
      | plain ps =>
        rw [validateLoopF, ih (ds ++ ps) (by
          simp [DagNode.weightList_append, DagNode.weightList, DagNode.weight] at h ⊢
          omega)]
        rw [containsMPList_append]
        simp [containsMPList, containsMP]
        rw [Bool.or_comm]

/-- The worklist walk finds a multiprocess node exactly when one is reachable. -/
theorem validateLoop_eq_containsMPList :
    ∀ l : List DagNode, validateLoop l = containsMPList l := by
  intro l
  exact validateLoopF_eq_containsMPList (DagNode.weightList l) l le_rfl

/-- C5.  Constructing a `MultiprocessPrefetchLazyIterDataset` fails if and
only if `num_workers < 1` or the parent DAG (reached transitively through
`parents`) already contains a multiprocess-prefetch node; both checks run at
construction time. -/
theorem multiprocess_construction_validation (parent : DagNode)
    (opts : MultiprocessingOptions) :
    (∃ msg, mkMultiprocessPrefetchDataset parent opts = .error msg) ↔
      (opts.num_workers < 1 ∨ containsMP parent = true) := by
  unfold mkMultiprocessPrefetchDataset
  have hv : validateLoop [parent] = containsMP parent := by
    rw [validateLoop_eq_containsMPList]
    simp [containsMPList]
  by_cases hw : opts.num_workers < 1
  · simp [hw]
  · rw [if_neg hw, hv]
    by_cases hc : containsMP parent = true
    · simp [hc, hw]
    · simp only [Bool.not_eq_true] at hc
      simp [hc, hw]

/-- Counterexample to C9 as stated: `ThreadPrefetchLazyDatasetIterator.get_state`
returns its live `_state` record without copying, so mutating the returned
record changes the result of a later `get_state`.  Concretely: with the live
state `\x7b"next_index": 1\x7d` stored at address 0, a caller who overwrites the
record returned by `get_state` with `\x7b"next_index": 99\x7d` observes `99` from the
next `get_state`, instead of the original `1`. -/
theorem thread_get_state_aliases_live_state :
    let h0 : Heap := ⟨fun _ => .dict [("next_index", .int 1)], 1⟩
    let it : ThreadPrefetchIter := ⟨0⟩
    let r := it.get_state h0
    let h2 := r.2.write r.1 (.dict [("next_index", .int 99)])
    h2.read (it.get_state h2).1 = .dict [("next_index", .int 99)] ∧
      h0.read (it.get_state h0).1 = .dict [("next_index", .int 1)] ∧
      (JVal.dict [("next_index", .int 99)]) ≠ .dict [("next_index", .int 1)] := by
  refine ⟨rfl, rfl, ?_⟩
  intro h
  simp at h

/-- C9 (amended).  The state record returned by `get_state` of
`MultiprocessPrefetchLazyDatasetIterator` (deep copy) and of
`PrefetchLazyDatasetIterator` (fresh literal) shares no mutable structure with
the iterator's live state: the returned address is fresh, mutating the
returned record leaves the live state intact, and a later `get_state` returns
the unchanged value.  `ThreadPrefetchLazyDatasetIterator.get_state`, by
contrast, returns the very address of its live state record. -/
theorem get_state_copy_semantics :
    (∀ (it : MultiprocessPrefetchIter) (h : Heap) (v : JVal),
        it.stateAddr < h.nextAddr →
        (it.get_state h).1 ≠ it.stateAddr ∧
        (((it.get_state h).2.write (it.get_state h).1 v).read it.stateAddr =
          h.read it.stateAddr) ∧
        ((it.get_state ((it.get_state h).2.write (it.get_state h).1 v)).2.read
            (it.get_state ((it.get_state h).2.write (it.get_state h).1 v)).1 =
          h.read it.stateAddr)) ∧
      (∀ (it : PrefetchIter) (h : Heap) (v : JVal),
        (it.get_state ((it.get_state h).2.write (it.get_state h).1 v)).2.read
            (it.get_state ((it.get_state h).2.write (it.get_state h).1 v)).1 =
          .dict [("next_index", .int it.next_index)]) ∧
      (∀ (it : ThreadPrefetchIter) (h : Heap), (it.get_state h).1 = it.stateAddr) := by
  refine ⟨?_, ?_, ?_⟩
  · intro it h v hwf
    refine ⟨by simp [MultiprocessPrefetchIter.get_state, Heap.alloc]; omega, ?_, ?_⟩
    · simp only [MultiprocessPrefetchIter.get_state, Heap.alloc, Heap.write, Heap.read]
      have hne : ¬ (it.stateAddr = h.nextAddr) := by omega
      simp [hne]
    · simp only [MultiprocessPrefetchIter.get_state, Heap.alloc, Heap.write, Heap.read]
      have hne : ¬ (it.stateAddr = h.nextAddr) := by omega
      simp [hne]
  · intro it h v
    simp [PrefetchIter.get_state, Heap.alloc, Heap.write, Heap.read]
  · intro it h
    rfl

/-- Witness for amended C9: a concrete multiprocess iterator whose live state
record sits at address 0 of a one-cell heap. -/
theorem get_state_copy_semantics_witness :
    mpItW.stateAddr < heapW.nextAddr ∧
      ((mpItW.get_state heapW).1 ≠ mpItW.stateAddr ∧
        (heapW2.read mpItW.stateAddr = heapW.read mpItW.stateAddr) ∧
        ((mpItW.get_state heapW2).2.read (mpItW.get_state heapW2).1 =
          heapW.read mpItW.stateAddr)) :=
  ⟨by decide, get_state_copy_semantics.1 mpItW heapW (JVal.int 5) (by decide)⟩

theorem segsOf_append :
    ∀ (l : List (List Int)) (k : Nat) (x : List Int),
      segsOf k (l ++ [x]) = segsOf k l ++ List.replicate x.length (k + l.length) := by
  intro l
  induction l with
  | nil => intro k x; simp [segsOf]
  | cons y ys ih =>
    intro k x
    have h1 : (y :: ys) ++ [x] = y :: (ys ++ [x]) := rfl
    rw [h1, segsOf, segsOf, ih, List.append_assoc, List.length_cons]
    have h2 : k + 1 + ys.length = k + (ys.length + 1) := by omega
    rw [h2]

theorem truncTo_getD :
    ∀ (caps : List Nat) (e : PackElement) (f : Nat),
      f < caps.length → f < e.length →
      (truncTo caps e).getD f [] = (e.getD f []).take (caps.getD f 0) := by
  intro caps
  induction caps with
  | nil => intro e f h _; simp at h
  | cons c cs ih =>
    intro e f h1 h2
    cases e with
    | nil => simp at h2
    | cons x xs =>
      cases f with
      | zero => simp [truncTo]
      | succ f =>
        simp only [truncTo, List.zipWith_cons_cons, List.getD_cons_succ]
        exact ih xs f (by simpa using h1) (by simpa using h2)

theorem remainingCaps_getD (lengths : List Nat) (bin : List PackElement) (f : Nat)
    (h : f < lengths.length) :
    (remainingCaps lengths bin).getD f 0 = lengths.getD f 0 - usedF bin f := by
  unfold remainingCaps
  rw [List.getD_eq_getElem?_getD, List.getElem?_map, List.getElem?_range h]
  rfl

/-- C3.  Truncation rule of the single-bin streaming packer (spec-modelled:
`packing.py` is absent from the sources; the model follows §4.E.1 and the
scenario pinned down by `test_pack_multiple_features_different_sequences_length`).
(1) When appending an incoming element into the current nonempty bin would
overflow some features but not others, the element enters the current bin (the
bin is not closed against it) with each feature independently truncated to the
bin's remaining capacity; (2) the truncated copy keeps, per feature, exactly
the values that fit — the overflow is silently dropped; (3) the
partially-copied element receives a segment id in every feature to which it
contributed at least one token; (4) on the four-element input with length
structure (inputs: 6, targets: 4), the first output record is
inputs = [1,2,3,4,5,6], targets = [10,20,30,40] with
targets_segment_ids = [1,1,2,2] — the value 50 is dropped. -/
theorem single_bin_pack_truncation :
    (∀ (lengths : List Nat) (bin : List PackElement) (e : PackElement),
        bin ≠ [] → fullyPackedAlone lengths e = false →
        anyFits lengths bin e = true → allFit lengths bin e = false →
        singleBinStep lengths bin e =
          (if binFull lengths (bin ++ [truncTo (remainingCaps lengths bin) e]) then
            ([renderBin lengths (bin ++ [truncTo (remainingCaps lengths bin) e])], [])
          else
            ([], bin ++ [truncTo (remainingCaps lengths bin) e]))) ∧
      (∀ (lengths : List Nat) (bin : List PackElement) (e : PackElement) (f : Nat),
        f < lengths.length → f < e.length →
        (truncTo (remainingCaps lengths bin) e).getD f [] =
          (e.getD f []).take (lengths.getD f 0 - usedF bin f)) ∧
      (∀ (lengths : List Nat) (bin : List PackElement) (e' : PackElement) (f : Nat),
        f < lengths.length → e'.getD f [] ≠ [] →
        ∃ vals segs poss,
          (renderBin lengths (bin ++ [e']))[f]? = some (vals, segs, poss) ∧
            (bin.length + 1) ∈ segs) ∧
      singleBinPack [6, 4]
          [[[1, 2, 3, 4], [10, 20]], [[5, 6], [30, 40, 50]],
           [[11, 12, 13, 14], [31, 41, 51]], [[7], [60]]] =
        [[([1, 2, 3, 4, 5, 6], [1, 1, 1, 1, 2, 2], [0, 1, 2, 3, 0, 1]),
          ([10, 20, 30, 40], [1, 1, 2, 2], [0, 1, 0, 1])],
         [([11, 12, 13, 14, 7, 0], [1, 1, 1, 1, 2, 0], [0, 1, 2, 3, 0, 0]),
          ([31, 41, 51, 60], [1, 1, 1, 2], [0, 1, 2, 0])]] := by
  refine ⟨?_, ?_, ?_, by decide⟩
  · intro lengths bin e hbin hfp hfit hover
    unfold singleBinStep
    rw [hfp]
    simp only [Bool.false_eq_true, if_false]
    rw [hfit, Bool.or_true]
    simp
  · intro lengths bin e f h1 h2
    rw [truncTo_getD (remainingCaps lengths bin) e f
        (by simp [remainingCaps, h1]) h2,
      remainingCaps_getD lengths bin f h1]
  · intro lengths bin e' f h1 hne
    have hcontrib : featContribs (bin ++ [e']) f =
        featContribs bin f ++ [e'.getD f []] := by
      unfold featContribs
      rw [List.map_append]
      rfl
    refine ⟨(renderFeature (lengths.getD f 0) (featContribs (bin ++ [e']) f)).1,
      (renderFeature (lengths.getD f 0) (featContribs (bin ++ [e']) f)).2.1,
      (renderFeature (lengths.getD f 0) (featContribs (bin ++ [e']) f)).2.2, ?_, ?_⟩
    · unfold renderBin
      rw [List.getElem?_map, List.getElem?_range h1]
      rfl
    · show (bin.length + 1) ∈
        segsOf 1 (featContribs (bin ++ [e']) f) ++
          List.replicate
            (lengths.getD f 0 - (featContribs (bin ++ [e']) f).flatten.length) 0
      rw [hcontrib, segsOf_append]
      have hlen : (featContribs bin f).length = bin.length := by
        unfold featContribs
        exact List.length_map ..
      rw [hlen]
      refine List.mem_append.mpr (Or.inl (List.mem_append.mpr (Or.inr ?_)))
      exact List.mem_replicate.mpr ⟨by simpa using hne, by omega⟩

/-- Witness for C3, instantiating the truncation step at the scenario's first
bin (element 1 buffered, element 2 incoming) and the segment-id property at
the `targets` feature. -/
theorem single_bin_pack_truncation_witness :
    ([[[1, 2, 3, 4], [10, 20]]] : List PackElement) ≠ [] ∧
      fullyPackedAlone [6, 4] [[5, 6], [30, 40, 50]] = false ∧
      anyFits [6, 4] [[[1, 2, 3, 4], [10, 20]]] [[5, 6], [30, 40, 50]] = true ∧
      allFit [6, 4] [[[1, 2, 3, 4], [10, 20]]] [[5, 6], [30, 40, 50]] = false ∧
      singleBinStep [6, 4] [[[1, 2, 3, 4], [10, 20]]] [[5, 6], [30, 40, 50]] =
        (if binFull [6, 4]
            ([[[1, 2, 3, 4], [10, 20]]] ++
              [truncTo (remainingCaps [6, 4] [[[1, 2, 3, 4], [10, 20]]])
                [[5, 6], [30, 40, 50]]]) then
          ([renderBin [6, 4]
              ([[[1, 2, 3, 4], [10, 20]]] ++
                [truncTo (remainingCaps [6, 4] [[[1, 2, 3, 4], [10, 20]]])
                  [[5, 6], [30, 40, 50]]])], [])
        else
          ([], [[[1, 2, 3, 4], [10, 20]]] ++
            [truncTo (remainingCaps [6, 4] [[[1, 2, 3, 4], [10, 20]]])
              [[5, 6], [30, 40, 50]]])) ∧
      (∃ vals segs poss,
        (renderBin [6, 4] ([[[1, 2, 3, 4], [10, 20]]] ++ [[[5, 6], [30, 40]]]))[1]? =
            some (vals, segs, poss) ∧ (1 + 1) ∈ segs) :=
  ⟨by decide, by decide, by decide, by decide,
    single_bin_pack_truncation.1 [6, 4] [[[1, 2, 3, 4], [10, 20]]]
      [[5, 6], [30, 40, 50]] (by decide) (by decide) (by decide) (by decide),
    single_bin_pack_truncation.2.2.1 [6, 4] [[[1, 2, 3, 4], [10, 20]]]
      [[5, 6], [30, 40]] 1 (by decide) (by decide)⟩
